import Mathlib

/-!
Verification development for the lakeFS Python client sources
(`lakefs_client/apis/tags/refs_api.py`, `lakefs_sdk/models/import_status.py`)
and for the reference/merge resolution and diff engine the specification
describes behind that client surface.

Python values are embedded shallowly: dictionaries are association lists,
`None` is an explicit constructor, fallible code returns `Except`.
`datetime` objects are opaque (an integer tick): nothing in the claims
depends on their internal structure, only on the fact that `json.dumps`
cannot serialize them.
-/

namespace LakeFS

/-- Modelled from the spec: the `Commit` data model (§3) — identifier
(content hash), ordered parent identifiers, metarange identifier, author
metadata, timestamp (Unix epoch integer), message.  The generated pydantic
model `lakefs_sdk/models/commit.py` is not part of the provided sources;
only its `to_dict`/`from_dict` shape (the same generated pattern as
`ImportStatus`) is needed here. -/
structure Commit where
  id : String
  parents : List String
  metarange_id : String
  committer : String
  creation_date : Int
  message : String
deriving DecidableEq, Repr

/-- Modelled from the spec: the error payload (§7) — an error value carries
a human-readable message.  `lakefs_sdk/models/error.py` is not part of the
provided sources. -/
structure Error where
  message : String
deriving DecidableEq, Repr

/-- A Python runtime value, as far as the generated client code inspects
one: `None`, `bool`, `int`, `str`, `datetime` (opaque tick), lists,
dictionaries with string keys, and already-constructed pydantic model
instances of the two nested model classes. -/
inductive PVal where
  | pnone : PVal
  | pbool : Bool → PVal
  | pint : Int → PVal
  | pstr : String → PVal
  | pdatetime : Int → PVal
  | plist : List PVal → PVal
  | pdict : List (String × PVal) → PVal
  | pcommit : Commit → PVal
  | perror : Error → PVal
deriving Repr

/-- `d.get(k)`: first value bound to `k`, or Python `None` when the key is
absent. -/
def dget (kvs : List (String × PVal)) (k : String) : PVal :=
  match kvs.lookup k with
  | some v => v
  | none => PVal.pnone

/-- True when the value is not Python `None`. -/
def PVal.isNotNone : PVal → Bool
  | .pnone => false
  | _ => true

/-- True when the value is a Python dict. -/
def PVal.isDict : PVal → Bool
  | .pdict _ => true
  | _ => false

mutual
/-- Whether Python's `json.dumps` (with the default encoder) accepts the
value: `bool`, `int`, `str`, `None`, and lists/dicts of such values are
serializable; `datetime` objects and pydantic model instances are not
(`json.dumps` raises `TypeError` on them). -/
def jsonSerializable : PVal → Bool
  | .pnone => true
  | .pbool _ => true
  | .pint _ => true
  | .pstr _ => true
  | .pdatetime _ => false
  | .plist vs => jsonSerializableItems vs
  | .pdict kvs => jsonSerializableValues kvs
  | .pcommit _ => false
  | .perror _ => false

/-- All items of a list are JSON-serializable. -/
def jsonSerializableItems : List PVal → Bool
  | [] => true
  | v :: rest => jsonSerializable v && jsonSerializableItems rest

/-- All values of a dict are JSON-serializable. -/
def jsonSerializableValues : List (String × PVal) → Bool
  | [] => true
  | (_, v) :: rest => jsonSerializable v && jsonSerializableValues rest
end

/-- Model of Python `json.dumps` followed by `json.loads`, at the value
level: `json.dumps` raises `TypeError` as soon as it meets a value the
default encoder cannot handle (a `datetime`, a model instance); for
serializable values the dump/parse pair is the identity on the value. -/
def jsonDumpLoad (v : PVal) : Except String PVal :=
  if jsonSerializable v then Except.ok v
  else Except.error "TypeError: Object of type datetime is not JSON serializable"

/-- A `[(k, w)]` singleton when the optional field is set, `[]` when it is
`None` — the shape `pydantic .dict(exclude_none=True)` gives an optional
field. -/
def optEntry (k : String) (v : Option PVal) : List (String × PVal) :=
  match v with
  | some w => [(k, w)]
  | none => []

/-- Modelled from the spec: `Commit.to_dict`, the same generated pattern as
`ImportStatus.to_dict` with every field required. -/
def Commit.to_dict (c : Commit) : List (String × PVal) :=
  [("id", .pstr c.id),
   ("parents", .plist (c.parents.map .pstr)),
   ("metarange_id", .pstr c.metarange_id),
   ("committer", .pstr c.committer),
   ("creation_date", .pint c.creation_date),
   ("message", .pstr c.message)]

/-- Extract a list of strings from a Python list value, failing on anything
that is not a list of `str` (pydantic `List[StrictStr]` validation). -/
def pvalStrList : PVal → Except String (List String)
  | .plist vs =>
      vs.mapM (fun v =>
        match v with
        | .pstr s => Except.ok s
        | _ => Except.error "ValidationError: str type expected")
  | _ => Except.error "ValidationError: list type expected"

/-- Modelled from the spec: pydantic validation of a `Commit` (`parse_obj`).
A dict is validated field by field; an already-constructed `Commit`
instance is accepted as-is (pydantic v1 iterates a model's fields when
given a non-dict, which re-validates to the same instance); anything else
fails validation. -/
def Commit.parse_obj : PVal → Except String Commit
  | .pdict kvs => do
      let i ← match dget kvs "id" with
        | .pstr s => Except.ok s
        | _ => Except.error "ValidationError: id"
      let ps ← pvalStrList (dget kvs "parents")
      let mr ← match dget kvs "metarange_id" with
        | .pstr s => Except.ok s
        | _ => Except.error "ValidationError: metarange_id"
      let cm ← match dget kvs "committer" with
        | .pstr s => Except.ok s
        | _ => Except.error "ValidationError: committer"
      let cd ← match dget kvs "creation_date" with
        | .pint n => Except.ok n
        | _ => Except.error "ValidationError: creation_date"
      let ms ← match dget kvs "message" with
        | .pstr s => Except.ok s
        | _ => Except.error "ValidationError: message"
      Except.ok ⟨i, ps, mr, cm, cd, ms⟩
  | .pcommit c => Except.ok c
  | _ => Except.error "ValidationError: Commit expected dict"

/-- Modelled from the spec: `Commit.from_dict`, the same generated pattern
as `ImportStatus.from_dict` — `None` maps to `None`, a non-dict is handed
to `parse_obj`, and a dict is re-keyed and validated. -/
def Commit.from_dict (v : PVal) : Except String (Option Commit) :=
  match v with
  | .pnone => Except.ok none
  | .pdict kvs =>
      (Commit.parse_obj (.pdict
        [("id", dget kvs "id"),
         ("parents", dget kvs "parents"),
         ("metarange_id", dget kvs "metarange_id"),
         ("committer", dget kvs "committer"),
         ("creation_date", dget kvs "creation_date"),
         ("message", dget kvs "message")])).map some
  | w => (Commit.parse_obj w).map some

/-- Modelled from the spec: `Error.to_dict` for the error payload. -/
def Error.to_dict (e : Error) : List (String × PVal) :=
  [("message", .pstr e.message)]

/-- Modelled from the spec: pydantic validation of an `Error`. -/
def Error.parse_obj : PVal → Except String Error
  | .pdict kvs =>
      match dget kvs "message" with
      | .pstr s => Except.ok ⟨s⟩
      | _ => Except.error "ValidationError: message"
  | .perror e => Except.ok e
  | _ => Except.error "ValidationError: Error expected dict"

/-- Modelled from the spec: `Error.from_dict`, same generated pattern. -/
def Error.from_dict (v : PVal) : Except String (Option Error) :=
  match v with
  | .pnone => Except.ok none
  | .pdict kvs => (Error.parse_obj (.pdict [("message", dget kvs "message")])).map some
  | w => (Error.parse_obj w).map some

/-- The `ImportStatus` pydantic model
(`lakefs_sdk/models/import_status.py` lines 27–42): two required fields
(`completed : StrictBool`, `update_time : datetime`) and four optional
ones, all `None` by default. -/
structure ImportStatus where
  completed : Bool
  update_time : Int
  ingested_objects : Option Int
  metarange_id : Option String
  commit : Option Commit
  error : Option Error
deriving DecidableEq, Repr

/-- `ImportStatus.to_dict` (lines 57–69): pydantic
`.dict(by_alias=True, exclude_none=True)` — field-declaration order, no
field here has a distinct alias, `None`-valued optional fields are
dropped — then the `commit` and `error` values are overridden with the
nested models' own `to_dict()` output.  (`if self.commit:` is truthiness,
but a pydantic model instance is always truthy, so it equals an
`is not None` test.) -/
def ImportStatus.to_dict (x : ImportStatus) : List (String × PVal) :=
  ("completed", .pbool x.completed) ::
  ("update_time", .pdatetime x.update_time) ::
  (optEntry "ingested_objects" (x.ingested_objects.map .pint) ++
   optEntry "metarange_id" (x.metarange_id.map .pstr) ++
   optEntry "commit" (x.commit.map (fun c => .pdict c.to_dict)) ++
   optEntry "error" (x.error.map (fun e => .pdict e.to_dict)))

/-- pydantic validation of an `ImportStatus` (`parse_obj`): a dict is
validated field by field — `completed` must be exactly a `bool`
(`StrictBool`) and is required, `update_time` accepts a `datetime` or an
epoch number (pydantic v1 lenient `datetime` coercion; ISO-string parsing
is not modelled, no claim exercises it), `ingested_objects` a strict
`int`, `metarange_id` a strict `str`, and `commit`/`error` accept `None`,
a nested dict (validated recursively), or an instance.  A non-dict fails
validation (pydantic's `dict(obj)` coercion is modelled as failing; no
claim inspects the result of `parse_obj` on a non-dict beyond the
delegation itself). -/
def ImportStatus.parse_obj : PVal → Except String ImportStatus
  | .pdict kvs => do
      let comp ← match dget kvs "completed" with
        | .pbool b => Except.ok b
        | _ => Except.error "ValidationError: completed"
      let ut ← match dget kvs "update_time" with
        | .pdatetime t => Except.ok t
        | .pint n => Except.ok n
        | _ => Except.error "ValidationError: update_time"
      let ing ← match dget kvs "ingested_objects" with
        | .pnone => Except.ok none
        | .pint n => Except.ok (some n)
        | _ => Except.error "ValidationError: ingested_objects"
      let mr ← match dget kvs "metarange_id" with
        | .pnone => Except.ok none
        | .pstr s => Except.ok (some s)
        | _ => Except.error "ValidationError: metarange_id"
      let co ← match dget kvs "commit" with
        | .pnone => Except.ok none
        | .pcommit c => Except.ok (some c)
        | .pdict d => (Commit.parse_obj (.pdict d)).map some
        | _ => Except.error "ValidationError: commit"
      let er ← match dget kvs "error" with
        | .pnone => Except.ok none
        | .perror e => Except.ok (some e)
        | .pdict d => (Error.parse_obj (.pdict d)).map some
        | _ => Except.error "ValidationError: error"
      Except.ok ⟨comp, ut, ing, mr, co, er⟩
  | _ => Except.error "ValidationError: ImportStatus expected dict"

/-- `ImportStatus.from_dict` (lines 71–88): `None` input returns `None`; a
non-dict input is handed to `parse_obj`; a dict input is re-keyed with
`.get`, the `commit`/`error` sub-objects are first run through the nested
models' `from_dict`, and the result is validated with `parse_obj`. -/
def ImportStatus.from_dict (v : PVal) : Except String (Option ImportStatus) :=
  match v with
  | .pnone => Except.ok none
  | .pdict kvs => do
      let co ← if (dget kvs "commit").isNotNone then
          (Commit.from_dict (dget kvs "commit")).map
            (fun oc => match oc with
              | some c => PVal.pcommit c
              | none => PVal.pnone)
        else pure PVal.pnone
      let er ← if (dget kvs "error").isNotNone then
          (Error.from_dict (dget kvs "error")).map
            (fun oe => match oe with
              | some e => PVal.perror e
              | none => PVal.pnone)
        else pure PVal.pnone
      (ImportStatus.parse_obj (.pdict
        [("completed", dget kvs "completed"),
         ("update_time", dget kvs "update_time"),
         ("ingested_objects", dget kvs "ingested_objects"),
         ("metarange_id", dget kvs "metarange_id"),
         ("commit", co),
         ("error", er)])).map some
  | w => (ImportStatus.parse_obj w).map some

/-- `ImportStatus.to_json` (lines 48–50): `json.dumps(self.to_dict())`,
modelled at the value level — it fails with `TypeError` exactly when the
dict holds a non-serializable value, and otherwise denotes the JSON text
of the dict. -/
def ImportStatus.to_json (x : ImportStatus) : Except String PVal :=
  jsonDumpLoad (.pdict x.to_dict)

/-- The `from_json(x.to_json())` composite (lines 48–55):
`json.dumps` on the dict, `json.loads` back, then `from_dict`. -/
def ImportStatus.to_json_from_json (x : ImportStatus) : Except String (Option ImportStatus) := do
  let v ← x.to_json
  ImportStatus.from_dict v

/-- The operations of the `RefsApi` class
(`lakefs_client/apis/tags/refs_api.py` lines 13–28): one constructor per
imported operation mix-in. -/
inductive RefsApiOperation where
  | DiffRefs
  | DumpRefs
  | FindMergeBase
  | LogCommits
  | MergeIntoBranch
  | RestoreRefs
deriving DecidableEq, Repr

/-- The base classes of `RefsApi`, in source order (lines 21–28). -/
def RefsApi.operations : List RefsApiOperation :=
  [.DiffRefs, .DumpRefs, .FindMergeBase, .LogCommits, .MergeIntoBranch, .RestoreRefs]

/-! ## The reference/merge resolution and diff engine (spec §§4.2–4.6)

The engine itself is not among the provided sources — only the client
bindings for `DiffRefs`, `FindMergeBase`, `LogCommits`,
`MergeIntoBranch` are.  The definitions below are modelled from the
spec's component contracts.  A metarange is represented by its key-level
content: a strictly key-sorted association list from object key to
content identifier (§3 invariant: "metarange entries are strictly
ordered and non-overlapping").  The range/metarange two-level nesting of
§4.2 is structural sharing for performance and does not change the
emitted diff entries, which are key-level. -/

/-- The change type of a diff entry (§3 `DiffEntry`). -/
inductive DiffType where
  | added
  | removed
  | changed
  | conflicting
deriving DecidableEq, Repr

/-- Modelled from the spec: a computed `DiffEntry` (§3) — the key (path),
its change type, and the value on the right side after the change
(`none` for a removal). -/
structure DiffEntry where
  path : String
  type : DiffType
  after : Option String
deriving DecidableEq, Repr

/-- A metarange's key-level content: strictly key-sorted `(key, id)`
entries. -/
abbrev Content := List (String × String)

/-- Strict ascending key order (§3 invariant). -/
def SortedKeys (m : Content) : Prop :=
  List.Pairwise (fun p q => p.1 < q.1) m

/-- Modelled from the spec: `diffMetaranges(a, b)` (§4.2) — a sorted
merge-join over the two ordered entry sequences; entries whose
identifiers are identical on both sides are skipped (the fast-path
equality check); entries are emitted in ascending key order. -/
def diffMetaranges : Content → Content → List DiffEntry
  | [], [] => []
  | [], (k, v) :: bs => ⟨k, .added, some v⟩ :: diffMetaranges [] bs
  | (k, _) :: as, [] => ⟨k, .removed, none⟩ :: diffMetaranges as []
  | (k₁, v₁) :: as, (k₂, v₂) :: bs =>
      if k₁ < k₂ then ⟨k₁, .removed, none⟩ :: diffMetaranges as ((k₂, v₂) :: bs)
      else if k₂ < k₁ then ⟨k₂, .added, some v₂⟩ :: diffMetaranges ((k₁, v₁) :: as) bs
      else if v₁ = v₂ then diffMetaranges as bs
      else ⟨k₂, .changed, some v₂⟩ :: diffMetaranges as bs

/-- Modelled from the spec: reconstructing `b` from `a` plus
`diffMetaranges(a, b)` (§8) — a sorted patch application: the edit list
is consumed in ascending path order against the sorted content; an edit
whose path precedes the current entry inserts (or is a no-op removal),
an edit at the current entry's path replaces or deletes it, and entries
before the next edit are kept. -/
def applyDiff : Content → List DiffEntry → Content
  | as, [] => as
  | [], e :: es =>
      (match e.after with
       | some w => [(e.path, w)]
       | none => []) ++ applyDiff [] es
  | (k, v) :: as, e :: es =>
      if e.path < k then
        (match e.after with
         | some w => [(e.path, w)]
         | none => []) ++ applyDiff ((k, v) :: as) es
      else if e.path = k then
        (match e.after with
         | some w => [(k, w)]
         | none => []) ++ applyDiff as es
      else (k, v) :: applyDiff as (e :: es)
termination_by as es => as.length + es.length

/-- Modelled from the spec: how a key's three-way change is resolved
(§4.4/§4.5) — either a definite winning value (`some` = write this value,
`none` = remove the key), or a conflict carrying each side's value. -/
inductive Resolution where
  | take : Option String → Resolution
  | conflict : Option String → Option String → Resolution
deriving DecidableEq, Repr

/-- One entry of the three-way diff: a path with its resolution. -/
structure MergeEntry where
  path : String
  res : Resolution
deriving DecidableEq, Repr

/-- Modelled from the spec: the Three-Way Diff Engine (§4.4) — merge-join
of `diffMetaranges(base, left)` and `diffMetaranges(base, right)` per
key: a key changed on only one side takes that side's value; changed
identically on both sides (same type and same resulting value, including
a removal on both) is no conflict; changed differently on both sides —
which covers the delete-versus-modify asymmetry, where the after-values
differ — is a conflict. -/
def threeWayDiff : List DiffEntry → List DiffEntry → List MergeEntry
  | [], [] => []
  | [], e :: es => ⟨e.path, .take e.after⟩ :: threeWayDiff [] es
  | d :: ds, [] => ⟨d.path, .take d.after⟩ :: threeWayDiff ds []
  | d :: ds, e :: es =>
      if d.path < e.path then ⟨d.path, .take d.after⟩ :: threeWayDiff ds (e :: es)
      else if e.path < d.path then ⟨e.path, .take e.after⟩ :: threeWayDiff (d :: ds) es
      else if d.after = e.after then ⟨d.path, .take d.after⟩ :: threeWayDiff ds es
      else ⟨d.path, .conflict d.after e.after⟩ :: threeWayDiff ds es
termination_by ds es => ds.length + es.length

/-- The conflicting keys of a three-way diff, in ascending key order. -/
def conflictKeys (entries : List MergeEntry) : List String :=
  (entries.filter (fun e =>
    match e.res with
    | .conflict _ _ => true
    | .take _ => false)).map (fun e => e.path)

/-- Modelled from the spec: the merge strategies of the Merge Planner
(§4.5). -/
inductive MergeStrategy where
  | failOnConflict
  | preferLeft
  | preferRight
deriving DecidableEq, Repr

/-- Modelled from the spec: a `MergeResult` (§3) — the resulting content
on success or the ordered conflicting keys on failure. -/
inductive MergeResult where
  | ok : Content → MergeResult
  | conflicts : List String → MergeResult
deriving DecidableEq, Repr

/-- Resolve one three-way entry to a definite edit under a
conflict-resolving strategy: `preferLeft` takes left's value at a
conflict, `preferRight` takes right's. -/
def resolveOne (s : MergeStrategy) (e : MergeEntry) : DiffEntry :=
  match e.res with
  | .take w => ⟨e.path, .changed, w⟩
  | .conflict l r =>
      match s with
      | .preferRight => ⟨e.path, .changed, r⟩
      | _ => ⟨e.path, .changed, l⟩

/-- Resolve every three-way entry under the strategy. -/
def resolveEntries (s : MergeStrategy) (entries : List MergeEntry) : List DiffEntry :=
  entries.map (resolveOne s)

/-- Modelled from the spec: the Merge Planner `plan(base, left, right,
strategy)` (§4.5) — compute the three-way diff from the two diffs against
the base; under `fail-on-conflict` abort with the list of conflicting
keys when any entry conflicts; otherwise apply the winning value of every
entry (left's at a conflict under `prefer-left`, right's under
`prefer-right`) into the resulting content. -/
def plan (base left right : Content) (s : MergeStrategy) : MergeResult :=
  let entries := threeWayDiff (diffMetaranges base left) (diffMetaranges base right)
  match s with
  | .failOnConflict =>
      if conflictKeys entries = [] then .ok (applyDiff base (resolveEntries s entries))
      else .conflicts (conflictKeys entries)
  | _ => .ok (applyDiff base (resolveEntries s entries))

/-! ## Refs Service orchestration, Ancestor Resolver, branch CAS -/

/-- Modelled from the spec: a repository's resolvable state for the Refs
Service (§4.6) — the ref namespace (branches and tags, name to commit
identifier), the commit graph store (identifier to commit), and the
metarange index (metarange identifier to key-level content). -/
structure Repo where
  refs : List (String × String)
  commits : List (String × Commit)
  metaranges : List (String × Content)
deriving Repr

/-- Modelled from the spec: resolving a ref (§3 `Ref`) — a branch or tag
name found in the namespace resolves to the commit it points at; failing
that, a direct commit identifier resolves to itself when the commit
exists; otherwise `NotFound`. -/
def resolveRef (repo : Repo) (r : String) : Except String String :=
  match repo.refs.lookup r with
  | some cid => Except.ok cid
  | none =>
      match repo.commits.lookup r with
      | some _ => Except.ok r
      | none => Except.error "NotFound"

/-- The metarange content a ref points at, through its commit. -/
def contentOfRef (repo : Repo) (r : String) : Except String Content := do
  let cid ← resolveRef repo r
  match repo.commits.lookup cid with
  | none => Except.error "NotFound"
  | some c =>
      match repo.metaranges.lookup c.metarange_id with
      | none => Except.error "corruption: missing metarange"
      | some m => Except.ok m

/-- Modelled from the spec: the Refs Service `diff(repository, leftRef,
rightRef)` (§4.6/§6) — resolve both refs to their commits' metaranges and
run the metarange diff. -/
def Refs.diff (repo : Repo) (leftRef rightRef : String) : Except String (List DiffEntry) := do
  let ml ← contentOfRef repo leftRef
  let mr ← contentOfRef repo rightRef
  Except.ok (diffMetaranges ml mr)

/-- Parent identifiers of a commit in the graph store (empty for an
unknown identifier). -/
def parentsOf (repo : Repo) (cid : String) : List String :=
  match repo.commits.lookup cid with
  | some c => c.parents
  | none => []

/-- One breadth step of ancestor traversal: add every parent of every
commit currently reached. -/
def ancestorStep (repo : Repo) (reached : List String) : List String :=
  (reached ++ (reached.map (parentsOf repo)).flatten).dedup

/-- All commits reachable from `c` along parent edges (including `c`),
computed by iterating the breadth step as many times as there are
commits — enough to reach a fixpoint on any graph stored in `repo`. -/
def ancestorsOf (repo : Repo) (c : String) : List String :=
  Nat.rec [c] (fun _ acc => ancestorStep repo acc) repo.commits.length

/-- Modelled from the spec: the Ancestor Resolver
`lowestCommonAncestors(commitA, commitB)` (§4.3) — the candidates are the
commits reachable from both sides; a candidate dominated by another
candidate (reachable from it along parent edges) is pruned, leaving the
minimal common ancestors. -/
def lowestCommonAncestors (repo : Repo) (a b : String) : List String :=
  let common := (ancestorsOf repo a).filter (fun c => c ∈ ancestorsOf repo b)
  common.filter (fun c =>
    ¬ common.any (fun d => d ≠ c && c ∈ ancestorsOf repo d))

/-- Modelled from the spec: the deterministic tie-break (§4.3) — when a
two-way merge needs a single base out of several minimal common
ancestors, the one with the lexicographically smallest commit identifier
is selected. -/
def chooseMergeBase (repo : Repo) (a b : String) : Option String :=
  match lowestCommonAncestors repo a b with
  | [] => none
  | c :: cs => some (cs.foldl (fun acc d => if d < acc then d else acc) c)

/-- Outcome of a branch-head compare-and-swap (§4.6/§5): the advancement
either wins or loses with the recoverable `Conflict` error. -/
inductive CasResult where
  | ok
  | conflict
deriving DecidableEq, Repr

/-- The branch namespace: branch name to current head commit
identifier. -/
abbrev BranchStore := List (String × String)

/-- Modelled from the spec: atomic branch advancement (§5) — a
compare-and-swap keyed on the branch name and the expected prior head: it
replaces the head only when the stored head still equals the expected
one, and otherwise leaves the store untouched and reports `Conflict`. -/
def casAdvance (store : BranchStore) (branch expected newHead : String) :
    BranchStore × CasResult :=
  match store.lookup branch with
  | some h =>
      if h = expected then
        (store.map (fun p => if p.1 = branch then (p.1, newHead) else p), .ok)
      else (store, .conflict)
  | none => (store, .conflict)

/-- A one-branch repository used to instantiate ref-level theorems at a
concrete input. -/
def exRepo : Repo :=
  { refs := [("main", "c1")],
    commits := [("c1", ⟨"c1", [], "m1", "author", 0, "root"⟩)],
    metaranges := [("m1", [("a", "1")])] }

/-- A criss-cross history: `a` and `b` are both merges of `x` and `y`,
which share the root `r` — so `a` and `b` have the two minimal common
ancestors `x` and `y`. -/
def exCrissCross : Repo :=
  { refs := [],
    commits :=
      [("a", ⟨"a", ["x", "y"], "m", "author", 0, ""⟩),
       ("b", ⟨"b", ["x", "y"], "m", "author", 0, ""⟩),
       ("x", ⟨"x", ["r"], "m", "author", 0, ""⟩),
       ("y", ⟨"y", ["r"], "m", "author", 0, ""⟩),
       ("r", ⟨"r", [], "m", "author", 0, ""⟩)],
    metaranges := [] }

/-! ## Theorems -/

/-- Mapping a string list into `pstr` values and validating it back is the
identity (pydantic `List[StrictStr]` accepts exactly what
`Commit.to_dict` emits for `parents`). -/
theorem pvalStrList_map_pstr (ps : List String) :
    pvalStrList (.plist (ps.map .pstr)) = Except.ok ps := by
  induction ps with
  | nil => rfl
  | cons h t ih =>
      simp only [pvalStrList, List.map_cons, List.mapM_cons] at ih ⊢
      simp_all [bind, Except.bind, pure, Except.pure]

/-- `Commit.from_dict` undoes `Commit.to_dict`. -/
theorem commit_from_dict_to_dict (c : Commit) :
    Commit.from_dict (.pdict c.to_dict) = Except.ok (some c) := by
  obtain ⟨i, ps, mr, cm, cd, ms⟩ := c
  simp only [Commit.from_dict, Commit.to_dict, Commit.parse_obj, dget, List.lookup]
  simp [pvalStrList_map_pstr, bind, Except.bind, Except.map, pure, Except.pure]

/-- `Error.from_dict` undoes `Error.to_dict`. -/
theorem error_from_dict_to_dict (e : Error) :
    Error.from_dict (.pdict e.to_dict) = Except.ok (some e) := rfl

/-- At the dict level the generated serialization does round-trip:
`from_dict` undoes `to_dict` on every `ImportStatus`.  (The round trip
through `to_json`/`from_json` breaks earlier, in `json.dumps` — see the
claim theorem below.) -/
theorem importStatus_from_dict_to_dict (x : ImportStatus) :
    ImportStatus.from_dict (.pdict x.to_dict) = Except.ok (some x) := by
  obtain ⟨c, t, n1, n2, n3, n4⟩ := x
  cases n1 <;> cases n2 <;> cases n3 <;> cases n4 <;>
    simp [ImportStatus.from_dict, ImportStatus.to_dict, ImportStatus.parse_obj,
      optEntry, dget, List.lookup, PVal.isNotNone, commit_from_dict_to_dict,
      error_from_dict_to_dict, bind, Except.bind, Except.map, pure, Except.pure]

/-- Claim C1: the `RefsApi` class exposes exactly the six ref-level
operations `DiffRefs`, `DumpRefs`, `FindMergeBase`, `LogCommits`,
`MergeIntoBranch`, `RestoreRefs` — every operation of the surface is
among its base classes, none twice, and there are exactly six. -/
theorem refsApi_operations_exact :
    (∀ op : RefsApiOperation, op ∈ RefsApi.operations) ∧
    RefsApi.operations.Nodup ∧ RefsApi.operations.length = 6 :=
  ⟨fun op => by cases op <;> simp [RefsApi.operations], by decide, rfl⟩

/-- Claim C2 (failing evaluation): for every constructible `ImportStatus`,
`from_json(x.to_json())` does not round-trip — it raises inside
`to_json`, because `json.dumps` is applied to the dict produced by
pydantic `.dict()`, which still holds the required `update_time` field as
a `datetime` object, a type the default JSON encoder rejects. -/
theorem importStatus_to_json_raises (x : ImportStatus) :
    ImportStatus.to_json_from_json x =
      Except.error "TypeError: Object of type datetime is not JSON serializable" := by
  have h : jsonSerializable (.pdict x.to_dict) = false := by
    simp [ImportStatus.to_dict, jsonSerializable, jsonSerializableValues]
  simp [ImportStatus.to_json_from_json, ImportStatus.to_json, jsonDumpLoad, h,
    bind, Except.bind]

/-- Claim C3: `ImportStatus.from_dict` maps the input `None` to `None`
(no exception, no instance), and hands every non-`None`, non-dict input
to pydantic `parse_obj` unchanged. -/
theorem importStatus_from_dict_none_delegation :
    ImportStatus.from_dict PVal.pnone = Except.ok none ∧
    ∀ v : PVal, v.isNotNone = true → v.isDict = false →
      ImportStatus.from_dict v = (ImportStatus.parse_obj v).map some := by
  refine ⟨rfl, fun v h1 h2 => ?_⟩
  cases v <;> simp_all [PVal.isNotNone, PVal.isDict] <;> rfl

/-- Claim C3 witness: the delegation at the concrete non-dict input `5`. -/
theorem importStatus_from_dict_none_delegation_witness :
    ImportStatus.from_dict (.pint 5) = (ImportStatus.parse_obj (.pint 5)).map some :=
  importStatus_from_dict_none_delegation.2 (.pint 5) rfl rfl

/-- Claim C4: `ImportStatus.to_dict` always carries the required keys
`completed` and `update_time` with the field values, carries each
optional key exactly when that field is not `None`, and carries the
`commit`/`error` values as the nested models' own `to_dict()` output. -/
theorem importStatus_to_dict_keys (x : ImportStatus) :
    (x.to_dict).lookup "completed" = some (.pbool x.completed) ∧
    (x.to_dict).lookup "update_time" = some (.pdatetime x.update_time) ∧
    (x.to_dict).lookup "ingested_objects" = x.ingested_objects.map (fun n => .pint n) ∧
    (x.to_dict).lookup "metarange_id" = x.metarange_id.map (fun s => .pstr s) ∧
    (x.to_dict).lookup "commit" = x.commit.map (fun c => .pdict c.to_dict) ∧
    (x.to_dict).lookup "error" = x.error.map (fun e => .pdict e.to_dict) := by
  obtain ⟨c, t, n1, n2, n3, n4⟩ := x
  cases n1 <;> cases n2 <;> cases n3 <;> cases n4 <;>
    exact ⟨rfl, rfl, rfl, rfl, rfl, rfl⟩

/-- The metarange diff of identical content is empty: the merge-join skips
every entry through the identical-identifier fast path. -/
theorem diffMetaranges_self (m : Content) : diffMetaranges m m = [] := by
  induction m with
  | nil => simp [diffMetaranges]
  | cons h t ih =>
      obtain ⟨k, v⟩ := h
      simp [diffMetaranges, ih]

/-- Every emitted diff entry's path occurs in one of the two inputs. -/
theorem diff_paths_mem (a b : Content) (e : DiffEntry) (h : e ∈ diffMetaranges a b) :
    e.path ∈ a.map Prod.fst ∨ e.path ∈ b.map Prod.fst := by
  induction a, b using diffMetaranges.induct with
  | case1 => simp [diffMetaranges] at h
  | case2 k v bs ih =>
      simp only [diffMetaranges, List.mem_cons] at h
      rcases h with h | h
      · subst h; simp
      · rcases ih h with h2 | h2 <;> simp_all
  | case3 k v as ih =>
      simp only [diffMetaranges, List.mem_cons] at h
      rcases h with h | h
      · subst h; simp
      · rcases ih h with h2 | h2 <;> simp_all
  | case4 k1 v1 as k2 v2 bs hlt ih =>
      rw [diffMetaranges, if_pos hlt] at h
      rcases List.mem_cons.mp h with h | h
      · subst h; simp
      · rcases ih h with h2 | h2 <;> simp_all
  | case5 k1 v1 as k2 v2 bs hlt hlt2 ih =>
      rw [diffMetaranges, if_neg hlt, if_pos hlt2] at h
      rcases List.mem_cons.mp h with h | h
      · subst h; simp
      · rcases ih h with h2 | h2 <;> simp_all
  | case6 k1 as k2 v2 bs hlt hlt2 ih =>
      rw [diffMetaranges, if_neg hlt, if_neg hlt2, if_pos rfl] at h
      rcases ih h with h2 | h2 <;> simp_all
  | case7 k1 v1 as k2 v2 bs hlt hlt2 hne ih =>
      rw [diffMetaranges, if_neg hlt, if_neg hlt2, if_neg hne] at h
      rcases List.mem_cons.mp h with h | h
      · subst h; simp
      · rcases ih h with h2 | h2 <;> simp_all

/-- Claim C6: applying the output of `diffMetaranges(a, b)` to `a`
reconstructs `b` exactly — diff followed by apply is an inverse, for all
sorted metarange contents. -/
theorem diff_apply_reconstructs (a b : Content)
    (ha : SortedKeys a) (hb : SortedKeys b) :
    applyDiff a (diffMetaranges a b) = b := by
  induction a, b using diffMetaranges.induct with
  | case1 => simp [diffMetaranges, applyDiff]
  | case2 k v bs ih =>
      rw [diffMetaranges, applyDiff]
      rw [ih List.Pairwise.nil (List.pairwise_cons.mp hb).2]
      rfl
  | case3 k v as ih =>
      rw [diffMetaranges, applyDiff]
      simp only [if_neg (lt_irrefl k), if_pos rfl]
      rw [ih (List.pairwise_cons.mp ha).2 hb]
      rfl
  | case4 k1 v1 as k2 v2 bs hlt ih =>
      rw [diffMetaranges, if_pos hlt, applyDiff]
      simp only [if_neg (lt_irrefl k1), if_pos rfl]
      rw [ih (List.pairwise_cons.mp ha).2 hb]
      rfl
  | case5 k1 v1 as k2 v2 bs hlt hlt2 ih =>
      rw [diffMetaranges, if_neg hlt, if_pos hlt2, applyDiff]
      simp only [if_pos hlt2]
      rw [ih ha (List.pairwise_cons.mp hb).2]
      rfl
  | case6 k1 as k2 v2 bs hlt hlt2 ih =>
      have hk : k1 = k2 := le_antisymm (le_of_not_lt hlt2) (le_of_not_lt hlt)
      rw [diffMetaranges, if_neg hlt, if_neg hlt2, if_pos rfl]
      have has := (List.pairwise_cons.mp ha).2
      have hbs := (List.pairwise_cons.mp hb).2
      rcases hd : diffMetaranges as bs with _ | ⟨x, xs⟩
      · rw [applyDiff]
        have : as = bs := by
          have := ih has hbs
          rw [hd] at this
          rw [applyDiff] at this
          exact this
        rw [this, hk]
      · have hx : x ∈ diffMetaranges as bs := by rw [hd]; exact List.mem_cons_self x xs
        have hgt : k1 < x.path := by
          rcases diff_paths_mem as bs x hx with h2 | h2
          · rcases List.mem_map.mp h2 with ⟨p, hp, hpe⟩
            have := (List.pairwise_cons.mp ha).1 p hp
            rw [hpe] at this; exact this
          · rcases List.mem_map.mp h2 with ⟨p, hp, hpe⟩
            have := (List.pairwise_cons.mp hb).1 p hp
            rw [hpe] at this; rw [hk]; exact this
        have hn1 : ¬ x.path < k1 := asymm hgt
        have hn2 : ¬ x.path = k1 := fun hc => absurd (hc ▸ hgt) (lt_irrefl _)
        rw [applyDiff, if_neg hn1, if_neg hn2]
        have := ih has hbs
        rw [hd] at this
        rw [this, hk]
  | case7 k1 v1 as k2 v2 bs hlt hlt2 hne ih =>
      have hk : k1 = k2 := le_antisymm (le_of_not_lt hlt2) (le_of_not_lt hlt)
      have has := (List.pairwise_cons.mp ha).2
      have hbs := (List.pairwise_cons.mp hb).2
      have hn1 : ¬ k2 < k1 := hlt2
      rw [diffMetaranges, if_neg hlt, if_neg hlt2, if_neg hne, applyDiff,
        if_neg hn1, if_pos hk.symm]
      rw [ih has hbs, hk]
      rfl

theorem conflictKeys_cons_take (p : String) (w : Option String) (rest : List MergeEntry) :
    conflictKeys (⟨p, .take w⟩ :: rest) = conflictKeys rest := rfl

theorem conflictKeys_cons_conflict (p : String) (l r : Option String) (rest : List MergeEntry) :
    conflictKeys (⟨p, .conflict l r⟩ :: rest) = p :: conflictKeys rest := rfl

theorem diff_lower_bound {a b : Content} {p : String}
    (hpa : ∀ q ∈ a, p < q.1) (hpb : ∀ q ∈ b, p < q.1) :
    ∀ e ∈ diffMetaranges a b, p < e.path := by
  intro e he
  rcases diff_paths_mem a b e he with h | h <;> rcases List.mem_map.mp h with ⟨q, hq, hqe⟩
  · exact hqe ▸ hpa q hq
  · exact hqe ▸ hpb q hq

/-- Paths of a diff are strictly ascending when the inputs are sorted. -/
theorem diff_sorted (a b : Content) (ha : SortedKeys a) (hb : SortedKeys b) :
    List.Pairwise (fun x y : DiffEntry => x.path < y.path) (diffMetaranges a b) := by
  induction a, b using diffMetaranges.induct with
  | case1 => simp [diffMetaranges]
  | case2 k v bs ih =>
      rw [diffMetaranges]
      refine List.Pairwise.cons ?_ (ih List.Pairwise.nil (List.pairwise_cons.mp hb).2)
      exact diff_lower_bound (by simp) (List.pairwise_cons.mp hb).1
  | case3 k v as ih =>
      rw [diffMetaranges]
      refine List.Pairwise.cons ?_ (ih (List.pairwise_cons.mp ha).2 List.Pairwise.nil)
      exact diff_lower_bound (List.pairwise_cons.mp ha).1 (by simp)
  | case4 k1 v1 as k2 v2 bs hlt ih =>
      rw [diffMetaranges, if_pos hlt]
      refine List.Pairwise.cons ?_ (ih (List.pairwise_cons.mp ha).2 hb)
      refine diff_lower_bound (List.pairwise_cons.mp ha).1 ?_
      intro q hq
      rcases List.mem_cons.mp hq with h | h
      · rw [h]; exact hlt
      · exact lt_trans hlt ((List.pairwise_cons.mp hb).1 q h)
  | case5 k1 v1 as k2 v2 bs hlt hlt2 ih =>
      rw [diffMetaranges, if_neg hlt, if_pos hlt2]
      refine List.Pairwise.cons ?_ (ih ha (List.pairwise_cons.mp hb).2)
      refine diff_lower_bound ?_ (List.pairwise_cons.mp hb).1
      intro q hq
      rcases List.mem_cons.mp hq with h | h
      · rw [h]; exact hlt2
      · exact lt_trans hlt2 ((List.pairwise_cons.mp ha).1 q h)
  | case6 k1 as k2 v2 bs hlt hlt2 ih =>
      rw [diffMetaranges, if_neg hlt, if_neg hlt2, if_pos rfl]
      exact ih (List.pairwise_cons.mp ha).2 (List.pairwise_cons.mp hb).2
  | case7 k1 v1 as k2 v2 bs hlt hlt2 hne ih =>
      have hk : k1 = k2 := le_antisymm (le_of_not_lt hlt2) (le_of_not_lt hlt)
      rw [diffMetaranges, if_neg hlt, if_neg hlt2, if_neg hne]
      refine List.Pairwise.cons ?_ (ih (List.pairwise_cons.mp ha).2 (List.pairwise_cons.mp hb).2)
      refine diff_lower_bound ?_ ?_
      · intro q hq; rw [← hk]; exact (List.pairwise_cons.mp ha).1 q hq
      · intro q hq; exact (List.pairwise_cons.mp hb).1 q hq

theorem threeWay_paths_mem (d e : List DiffEntry) (x : MergeEntry)
    (h : x ∈ threeWayDiff d e) :
    x.path ∈ d.map DiffEntry.path ∨ x.path ∈ e.map DiffEntry.path := by
  induction d, e using threeWayDiff.induct with
  | case1 => simp [threeWayDiff] at h
  | case2 f es ih =>
      rw [threeWayDiff] at h
      rcases List.mem_cons.mp h with h | h
      · subst h; simp
      · rcases ih h with h2 | h2 <;> simp_all
  | case3 f ds ih =>
      rw [threeWayDiff] at h
      rcases List.mem_cons.mp h with h | h
      · subst h; simp
      · rcases ih h with h2 | h2 <;> simp_all
  | case4 f ds g es hlt ih =>
      rw [threeWayDiff, if_pos hlt] at h
      rcases List.mem_cons.mp h with h | h
      · subst h; simp
      · rcases ih h with h2 | h2 <;> simp_all
  | case5 f ds g es hlt hlt2 ih =>
      rw [threeWayDiff, if_neg hlt, if_pos hlt2] at h
      rcases List.mem_cons.mp h with h | h
      · subst h; simp
      · rcases ih h with h2 | h2 <;> simp_all
  | case6 f ds g es hlt hlt2 heq ih =>
      rw [threeWayDiff, if_neg hlt, if_neg hlt2, if_pos heq] at h
      rcases List.mem_cons.mp h with h | h
      · subst h; simp
      · rcases ih h with h2 | h2 <;> simp_all
  | case7 f ds g es hlt hlt2 hne ih =>
      rw [threeWayDiff, if_neg hlt, if_neg hlt2, if_neg hne] at h
      rcases List.mem_cons.mp h with h | h
      · subst h; simp
      · rcases ih h with h2 | h2 <;> simp_all

theorem threeWay_lower_bound {d e : List DiffEntry} {p : String}
    (hpd : ∀ q ∈ d, p < q.path) (hpe : ∀ q ∈ e, p < q.path) :
    ∀ x ∈ threeWayDiff d e, p < x.path := by
  intro x hx
  rcases threeWay_paths_mem d e x hx with h | h <;> rcases List.mem_map.mp h with ⟨q, hq, hqe⟩
  · exact hqe ▸ hpd q hq
  · exact hqe ▸ hpe q hq

/-- Paths of a three-way diff are strictly ascending when the two input
diffs are. -/
theorem threeWay_sorted (d e : List DiffEntry)
    (hd : List.Pairwise (fun x y : DiffEntry => x.path < y.path) d)
    (he : List.Pairwise (fun x y : DiffEntry => x.path < y.path) e) :
    List.Pairwise (fun x y : MergeEntry => x.path < y.path) (threeWayDiff d e) := by
  induction d, e using threeWayDiff.induct with
  | case1 => simp [threeWayDiff]
  | case2 f es ih =>
      rw [threeWayDiff]
      refine List.Pairwise.cons ?_ (ih List.Pairwise.nil (List.pairwise_cons.mp he).2)
      exact threeWay_lower_bound (by simp) (List.pairwise_cons.mp he).1
  | case3 f ds ih =>
      rw [threeWayDiff]
      refine List.Pairwise.cons ?_ (ih (List.pairwise_cons.mp hd).2 List.Pairwise.nil)
      exact threeWay_lower_bound (List.pairwise_cons.mp hd).1 (by simp)
  | case4 f ds g es hlt ih =>
      rw [threeWayDiff, if_pos hlt]
      refine List.Pairwise.cons ?_ (ih (List.pairwise_cons.mp hd).2 he)
      refine threeWay_lower_bound (List.pairwise_cons.mp hd).1 ?_
      intro q hq
      rcases List.mem_cons.mp hq with h | h
      · rw [h]; exact hlt
      · exact lt_trans hlt ((List.pairwise_cons.mp he).1 q h)
  | case5 f ds g es hlt hlt2 ih =>
      rw [threeWayDiff, if_neg hlt, if_pos hlt2]
      refine List.Pairwise.cons ?_ (ih hd (List.pairwise_cons.mp he).2)
      refine threeWay_lower_bound ?_ (List.pairwise_cons.mp he).1
      intro q hq
      rcases List.mem_cons.mp hq with h | h
      · rw [h]; exact hlt2
      · exact lt_trans hlt2 ((List.pairwise_cons.mp hd).1 q h)
  | case6 f ds g es hlt hlt2 heq ih =>
      rw [threeWayDiff, if_neg hlt, if_neg hlt2, if_pos heq]
      refine List.Pairwise.cons ?_ (ih (List.pairwise_cons.mp hd).2 (List.pairwise_cons.mp he).2)
      refine threeWay_lower_bound (List.pairwise_cons.mp hd).1 ?_
      intro q hq
      have hk : f.path = g.path := le_antisymm (le_of_not_lt hlt2) (le_of_not_lt hlt)
      rw [hk]
      exact (List.pairwise_cons.mp he).1 q hq
  | case7 f ds g es hlt hlt2 hne ih =>
      rw [threeWayDiff, if_neg hlt, if_neg hlt2, if_neg hne]
      refine List.Pairwise.cons ?_ (ih (List.pairwise_cons.mp hd).2 (List.pairwise_cons.mp he).2)
      refine threeWay_lower_bound (List.pairwise_cons.mp hd).1 ?_
      intro q hq
      have hk : f.path = g.path := le_antisymm (le_of_not_lt hlt2) (le_of_not_lt hlt)
      rw [hk]
      exact (List.pairwise_cons.mp he).1 q hq

/-- When the three-way diff holds no conflicting entry, swapping left and
right yields the same entries in the same order. -/
theorem threeWayDiff_comm (d e : List DiffEntry) :
    conflictKeys (threeWayDiff d e) = [] → threeWayDiff d e = threeWayDiff e d := by
  induction d, e using threeWayDiff.induct with
  | case1 => intro _; rfl
  | case2 f es ih =>
      intro h
      rw [threeWayDiff.eq_2, conflictKeys_cons_take] at h
      rw [threeWayDiff.eq_2, threeWayDiff.eq_3, ih h]
  | case3 f ds ih =>
      intro h
      rw [threeWayDiff.eq_3, conflictKeys_cons_take] at h
      rw [threeWayDiff.eq_3, threeWayDiff.eq_2, ih h]
  | case4 f ds g es hlt ih =>
      intro h
      rw [threeWayDiff.eq_4, if_pos hlt, conflictKeys_cons_take] at h
      rw [threeWayDiff.eq_4, if_pos hlt, threeWayDiff.eq_4, if_neg (asymm hlt), if_pos hlt,
        ih h]
  | case5 f ds g es hlt hlt2 ih =>
      intro h
      rw [threeWayDiff.eq_4, if_neg hlt, if_pos hlt2, conflictKeys_cons_take] at h
      rw [threeWayDiff.eq_4, if_neg hlt, if_pos hlt2, threeWayDiff.eq_4, if_pos hlt2, ih h]
  | case6 f ds g es hlt hlt2 heq ih =>
      intro h
      rw [threeWayDiff.eq_4, if_neg hlt, if_neg hlt2, if_pos heq, conflictKeys_cons_take] at h
      have hk : f.path = g.path := le_antisymm (le_of_not_lt hlt2) (le_of_not_lt hlt)
      rw [threeWayDiff.eq_4, if_neg hlt, if_neg hlt2, if_pos heq,
        threeWayDiff.eq_4, if_neg hlt2, if_neg hlt, if_pos heq.symm, ih h, hk, heq]
  | case7 f ds g es hlt hlt2 hne ih =>
      intro h
      rw [threeWayDiff.eq_4, if_neg hlt, if_neg hlt2, if_neg hne,
        conflictKeys_cons_conflict] at h
      exact absurd h (List.cons_ne_nil _ _)

theorem lkp_cons_self {β : Type} (k : String) (v : β) (t : List (String × β)) :
    List.lookup k ((k, v) :: t) = some v := by
  simp [List.lookup]

theorem lkp_cons_ne {β : Type} (k k' : String) (v : β) (t : List (String × β)) (h : k ≠ k') :
    List.lookup k ((k', v) :: t) = List.lookup k t := by
  simp [List.lookup, beq_false_of_ne h]

theorem lkp_none_of_not_mem_keys (l : Content) (k : String)
    (h : k ∉ l.map Prod.fst) : l.lookup k = none := by
  induction l with
  | nil => rfl
  | cons p t ih =>
      obtain ⟨k', v⟩ := p
      simp only [List.map_cons, List.mem_cons, not_or] at h
      rw [lkp_cons_ne k k' v t h.1]
      exact ih h.2

theorem applyDiff_keys_mem (as : Content) (es : List DiffEntry) (x : String)
    (h : x ∈ (applyDiff as es).map Prod.fst) :
    x ∈ as.map Prod.fst ∨ x ∈ es.map DiffEntry.path := by
  induction as, es using applyDiff.induct with
  | case1 as => rw [applyDiff] at h; exact Or.inl h
  | case2 e es ih =>
      rw [applyDiff] at h
      rcases he : e.after with _ | w <;> rw [he] at h
      · rcases ih h with h2 | h2 <;> simp_all
      · simp only [List.singleton_append, List.map_cons, List.mem_cons] at h
        rcases h with h | h
        · subst h; simp
        · rcases ih h with h2 | h2 <;> simp_all
  | case3 k v as e es hlt ih =>
      rw [applyDiff, if_pos hlt] at h
      rcases he : e.after with _ | w <;> rw [he] at h
      · rcases ih h with h2 | h2 <;> simp_all
      · simp only [List.singleton_append, List.map_cons, List.mem_cons] at h
        rcases h with h | h
        · subst h; simp
        · rcases ih h with h2 | h2 <;> simp_all
  | case4 v as e es hlt ih =>
      rw [applyDiff, if_neg hlt, if_pos rfl] at h
      rcases he : e.after with _ | w <;> rw [he] at h
      · rcases ih h with h2 | h2 <;> simp_all
      · simp only [List.singleton_append, List.map_cons, List.mem_cons] at h
        rcases h with h | h
        · subst h; simp
        · rcases ih h with h2 | h2 <;> simp_all
  | case5 k v as e es hlt hne ih =>
      rw [applyDiff, if_neg hlt, if_neg hne] at h
      simp only [List.map_cons, List.mem_cons] at h
      rcases h with h | h
      · subst h; simp
      · rcases ih h with h2 | h2 <;> simp_all

theorem applyDiff_lookup_lt (as : Content) (es : List DiffEntry) (k : String)
    (hlta : ∀ q ∈ as, k < q.1) (hlte : ∀ q ∈ es, k < q.path) :
    (applyDiff as es).lookup k = none := by
  apply lkp_none_of_not_mem_keys
  intro hx
  rcases applyDiff_keys_mem as es k hx with h | h <;> rcases List.mem_map.mp h with ⟨q, hq, hqe⟩
  · exact absurd (hqe ▸ hlta q hq) (lt_irrefl k)
  · exact absurd (hqe ▸ hlte q hq) (lt_irrefl k)

theorem applyDiff_lookup_entry (as : Content) (es : List DiffEntry) (k : String) (t : DiffType)
    (w : Option String)
    (hs : SortedKeys as)
    (hp : List.Pairwise (fun x y : DiffEntry => x.path < y.path) es)
    (hm : (⟨k, t, w⟩ : DiffEntry) ∈ es) :
    (applyDiff as es).lookup k = w := by
  induction as, es using applyDiff.induct with
  | case1 as => exact absurd hm (List.not_mem_nil _)
  | case2 e es ih =>
      rcases List.mem_cons.mp hm with he | he
      · rw [applyDiff, ← he]
        rcases w with _ | u
        · simp only [List.nil_append]
          refine applyDiff_lookup_lt [] es k (by simp) ?_
          intro q hq
          have := (List.pairwise_cons.mp hp).1 q hq
          rw [← he] at this; exact this
        · simp only [List.singleton_append]
          exact lkp_cons_self k u _
      · have hke : e.path < k := by
          have := (List.pairwise_cons.mp hp).1 _ he; exact this
        rw [applyDiff]
        rcases hea : e.after with _ | u
        · simp only [List.nil_append]
          exact ih List.Pairwise.nil (List.pairwise_cons.mp hp).2 he
        · simp only [List.singleton_append]
          rw [lkp_cons_ne k e.path u _ (ne_of_gt hke)]
          exact ih List.Pairwise.nil (List.pairwise_cons.mp hp).2 he
  | case3 k0 v as e es hlt ih =>
      rcases List.mem_cons.mp hm with he | he
      · rw [applyDiff, if_pos hlt, ← he]
        rcases w with _ | u
        · simp only [List.nil_append]
          refine applyDiff_lookup_lt ((k0, v) :: as) es k ?_ ?_
          · intro q hq
            rcases List.mem_cons.mp hq with h | h
            · rw [h]; rw [← he] at hlt; exact hlt
            · have h2 := (List.pairwise_cons.mp hs).1 q h
              rw [← he] at hlt
              exact lt_trans hlt h2
          · intro q hq
            have := (List.pairwise_cons.mp hp).1 q hq
            rw [← he] at this; exact this
        · simp only [List.singleton_append]
          exact lkp_cons_self k u _
      · have hke : e.path < k := (List.pairwise_cons.mp hp).1 _ he
        rw [applyDiff, if_pos hlt]
        rcases hea : e.after with _ | u
        · simp only [List.nil_append]
          exact ih hs (List.pairwise_cons.mp hp).2 he
        · simp only [List.singleton_append]
          rw [lkp_cons_ne k e.path u _ (ne_of_gt hke)]
          exact ih hs (List.pairwise_cons.mp hp).2 he
  | case4 v as e es hlt ih =>
      rcases List.mem_cons.mp hm with he | he
      · rw [applyDiff, if_neg hlt, if_pos rfl, ← he]
        rcases w with _ | u
        · simp only [List.nil_append]
          refine applyDiff_lookup_lt as es k ?_ ?_
          · intro q hq
            have h2 := (List.pairwise_cons.mp hs).1 q hq
            rw [← he] at h2; exact h2
          · intro q hq
            have := (List.pairwise_cons.mp hp).1 q hq
            rw [← he] at this; exact this
        · simp only [List.singleton_append]
          exact lkp_cons_self k u _
      · have hke : e.path < k := (List.pairwise_cons.mp hp).1 _ he
        rw [applyDiff, if_neg hlt, if_pos rfl]
        rcases hea : e.after with _ | u
        · simp only [List.nil_append]
          exact ih (List.pairwise_cons.mp hs).2 (List.pairwise_cons.mp hp).2 he
        · simp only [List.singleton_append]
          rw [lkp_cons_ne k e.path u _ (ne_of_gt hke)]
          exact ih (List.pairwise_cons.mp hs).2 (List.pairwise_cons.mp hp).2 he
  | case5 k0 v as e es hlt hne ih =>
      have hk0e : k0 < e.path := lt_of_le_of_ne (le_of_not_lt hlt) (fun hc => hne hc.symm)
      have hkk0 : k0 < k := by
        rcases List.mem_cons.mp hm with he | he
        · rw [← he] at hk0e; exact hk0e
        · exact lt_trans hk0e ((List.pairwise_cons.mp hp).1 _ he)
      rw [applyDiff, if_neg hlt, if_neg hne]
      rw [lkp_cons_ne k k0 v _ (ne_of_gt hkk0)]
      exact ih (List.pairwise_cons.mp hs).2 hp hm

theorem resolveEntries_sorted (s : MergeStrategy) (l : List MergeEntry)
    (h : List.Pairwise (fun x y : MergeEntry => x.path < y.path) l) :
    List.Pairwise (fun x y : DiffEntry => x.path < y.path) (resolveEntries s l) := by
  have hfp : ∀ e : MergeEntry, (resolveOne s e).path = e.path := by
    intro e
    rcases e with ⟨p, r⟩
    rcases r <;> rcases s <;> rfl
  refine List.Pairwise.map (resolveOne s) ?_ h
  intro a b hab
  rw [hfp a, hfp b]
  exact hab

/-- Claim C7: when the three-way diff of (base, left, right) holds no
conflicting entry, merging (base, left, right) and (base, right, left)
yields the same result under every strategy — merge is commutative on
non-conflicting changes. -/
theorem merge_commutes_no_conflicts (base left right : Content) (s : MergeStrategy)
    (h : conflictKeys (threeWayDiff (diffMetaranges base left) (diffMetaranges base right)) = []) :
    plan base left right s = plan base right left s := by
  have hc := threeWayDiff_comm _ _ h
  cases s <;> simp [plan, ← hc, h]

theorem cas_head_lookup (store : BranchStore) (b nh : String)
    (h : (store.lookup b).isSome) :
    (store.map (fun p => if p.1 = b then (p.1, nh) else p)).lookup b = some nh := by
  induction store with
  | nil => simp [List.lookup] at h
  | cons p t ih =>
      obtain ⟨k, v⟩ := p
      by_cases hkb : k = b
      · subst hkb
        simp only [List.map_cons, if_pos rfl]
        exact lkp_cons_self k nh _
      · simp only [List.map_cons, if_neg hkb]
        rw [lkp_cons_ne b k v _ (fun hc => hkb hc.symm)]
        rw [lkp_cons_ne b k v t (fun hc => hkb hc.symm)] at h
        exact ih h

theorem casAdvance_wins (store : BranchStore) (b expected newHead : String)
    (hlk : store.lookup b = some expected) :
    casAdvance store b expected newHead =
      (store.map (fun p => if p.1 = b then (p.1, newHead) else p), .ok) := by
  simp [casAdvance, hlk]

theorem casAdvance_loses (store : BranchStore) (b expected h' newHead : String)
    (hlk : store.lookup b = some h') (hne : h' ≠ expected) :
    casAdvance store b expected newHead = (store, .conflict) := by
  simp [casAdvance, hlk, hne]

/-- Claim C10: two merge attempts that both observed head `H` of the same
branch race through the atomic compare-and-swap: whichever lands first
succeeds and advances the branch to its head, and the other — now seeing
a head different from `H` — receives the recoverable `Conflict` outcome
and leaves the branch untouched. -/
theorem branch_cas_exactly_one_wins (store : BranchStore) (b H H1 H2 : String)
    (hh : store.lookup b = some H) (h1 : H1 ≠ H) :
    (casAdvance store b H H1).2 = .ok ∧
    ((casAdvance store b H H1).1).lookup b = some H1 ∧
    (casAdvance (casAdvance store b H H1).1 b H H2).2 = .conflict ∧
    (casAdvance (casAdvance store b H H1).1 b H H2).1 = (casAdvance store b H H1).1 := by
  have e1 := casAdvance_wins store b H H1 hh
  have hl : ((casAdvance store b H H1).1).lookup b = some H1 := by
    rw [e1]
    exact cas_head_lookup store b H1 (by simp [hh])
  have e2 := casAdvance_loses ((casAdvance store b H H1).1) b H H1 H2 hl h1
  exact ⟨by rw [e1], hl, by rw [e2], by rw [e2]⟩

theorem foldlMin_spec (cs : List String) (c : String) :
    (cs.foldl (fun acc d => if d < acc then d else acc) c) ∈ c :: cs ∧
    ∀ x ∈ c :: cs, (cs.foldl (fun acc d => if d < acc then d else acc) c) ≤ x := by
  induction cs generalizing c with
  | nil => exact ⟨List.mem_cons_self c [], by simp⟩
  | cons d ds ih =>
      simp only [List.foldl_cons]
      rcases ih (if d < c then d else c) with ⟨hmem, hbound⟩
      constructor
      · rcases List.mem_cons.mp hmem with h | h
        · rw [h]
          by_cases hdc : d < c
          · rw [if_pos hdc]; simp
          · rw [if_neg hdc]; simp
        · exact List.mem_cons.mpr (Or.inr (List.mem_cons.mpr (Or.inr h)))
      · intro x hx
        rcases List.mem_cons.mp hx with hxc | hx2
        · subst hxc
          refine le_trans (hbound _ (List.mem_cons_self _ _)) ?_
          by_cases hdc : d < x
          · rw [if_pos hdc]; exact le_of_lt hdc
          · rw [if_neg hdc]
        · rcases List.mem_cons.mp hx2 with hxd | hx3
          · subst hxd
            refine le_trans (hbound _ (List.mem_cons_self _ _)) ?_
            by_cases hdc : x < c
            · rw [if_pos hdc]
            · rw [if_neg hdc]; exact le_of_not_lt hdc
          · exact hbound x (List.mem_cons.mpr (Or.inr hx3))

/-- Claim C9: whenever the Ancestor Resolver leaves more than one minimal
common ancestor, the merge-base choice is the lexicographically smallest
identifier among them — a deterministic function of the graph. -/
theorem merge_base_tiebreak_lex_min (repo : Repo) (a b : String)
    (h : 1 < (lowestCommonAncestors repo a b).length) :
    ∃ m, chooseMergeBase repo a b = some m ∧ m ∈ lowestCommonAncestors repo a b ∧
      ∀ c ∈ lowestCommonAncestors repo a b, m ≤ c := by
  rcases hl : lowestCommonAncestors repo a b with _ | ⟨c, cs⟩
  · rw [hl] at h; simp at h
  · refine ⟨cs.foldl (fun acc d => if d < acc then d else acc) c, ?_, ?_, ?_⟩
    · simp [chooseMergeBase, hl]
    · exact (foldlMin_spec cs c).1
    · exact (foldlMin_spec cs c).2

example : 1 < (lowestCommonAncestors exCrissCross "a" "b").length := by decide
example : lowestCommonAncestors exCrissCross "a" "b" = ["x", "y"] := by decide

/-- Claim C5: diffing any resolvable ref against itself through the Refs
Service yields the empty sequence of diff entries. -/
theorem refs_diff_self_empty (repo : Repo) (r : String) (m : Content)
    (h : contentOfRef repo r = Except.ok m) :
    Refs.diff repo r r = Except.ok [] := by
  simp [Refs.diff, h, bind, Except.bind, diffMetaranges_self]

theorem refs_diff_self_empty_witness :
    contentOfRef exRepo "main" = Except.ok [("a", "1")] ∧
    Refs.diff exRepo "main" "main" = Except.ok [] :=
  ⟨rfl, refs_diff_self_empty exRepo "main" [("a", "1")] rfl⟩

theorem diff_apply_reconstructs_witness :
    SortedKeys [("a", "1"), ("c", "3")] ∧
    SortedKeys [("a", "2"), ("b", "9"), ("d", "4")] ∧
    applyDiff [("a", "1"), ("c", "3")]
        (diffMetaranges [("a", "1"), ("c", "3")] [("a", "2"), ("b", "9"), ("d", "4")]) =
      [("a", "2"), ("b", "9"), ("d", "4")] := by
  have s1 : SortedKeys [("a", "1"), ("c", "3")] := by simp [SortedKeys]; decide
  have s2 : SortedKeys [("a", "2"), ("b", "9"), ("d", "4")] := by simp [SortedKeys]; decide
  exact ⟨s1, s2, diff_apply_reconstructs _ _ s1 s2⟩

theorem merge_commutes_no_conflicts_witness :
    conflictKeys (threeWayDiff
        (diffMetaranges [("a", "1"), ("b", "5")] [("a", "2"), ("b", "5")])
        (diffMetaranges [("a", "1"), ("b", "5")] [("a", "1")])) = [] ∧
    plan [("a", "1"), ("b", "5")] [("a", "2"), ("b", "5")] [("a", "1")] .failOnConflict =
      plan [("a", "1"), ("b", "5")] [("a", "1")] [("a", "2"), ("b", "5")] .failOnConflict := by
  have h : conflictKeys (threeWayDiff
      (diffMetaranges [("a", "1"), ("b", "5")] [("a", "2"), ("b", "5")])
      (diffMetaranges [("a", "1"), ("b", "5")] [("a", "1")])) = [] := by
    simp [diffMetaranges, threeWayDiff, conflictKeys]
    decide
  exact ⟨h, merge_commutes_no_conflicts _ _ _ _ h⟩

/-- Claim C8: on a three-way diff with at least one conflicting entry the
Merge Planner aborts under `fail-on-conflict` with exactly the list of
conflicting keys; under `prefer-left` the result carries left's value at
every conflicting key and under `prefer-right` right's value; and on the
concrete scenario (base `a=1`, left `a=2`, right `a=3`) it reports the
conflict on `a`, yields `a=2` under `prefer-left` and `a=3` under
`prefer-right`. -/
theorem merge_planner_conflict_strategies :
    (∀ base left right,
      conflictKeys (threeWayDiff (diffMetaranges base left) (diffMetaranges base right)) ≠ [] →
      plan base left right .failOnConflict =
        .conflicts (conflictKeys
          (threeWayDiff (diffMetaranges base left) (diffMetaranges base right)))) ∧
    (∀ base left right k lv rv c,
      SortedKeys base → SortedKeys left → SortedKeys right →
      (⟨k, .conflict lv rv⟩ : MergeEntry) ∈
        threeWayDiff (diffMetaranges base left) (diffMetaranges base right) →
      (plan base left right .preferLeft = .ok c → c.lookup k = lv) ∧
      (plan base left right .preferRight = .ok c → c.lookup k = rv)) ∧
    plan [("a", "1")] [("a", "2")] [("a", "3")] .failOnConflict = .conflicts ["a"] ∧
    plan [("a", "1")] [("a", "2")] [("a", "3")] .preferLeft = .ok [("a", "2")] ∧
    plan [("a", "1")] [("a", "2")] [("a", "3")] .preferRight = .ok [("a", "3")] := by
  refine ⟨?_, ?_, ?_, ?_, ?_⟩
  · intro base left right h
    simp [plan, h]
  · intro base left right k lv rv c hb hl hr hmem
    have hsorted := threeWay_sorted _ _ (diff_sorted _ _ hb hl) (diff_sorted _ _ hb hr)
    constructor
    · intro hok
      have hplan : plan base left right .preferLeft =
          .ok (applyDiff base (resolveEntries .preferLeft
            (threeWayDiff (diffMetaranges base left) (diffMetaranges base right)))) := by
        simp [plan]
      rw [hplan] at hok
      cases hok
      refine applyDiff_lookup_entry base _ k .changed lv hb
        (resolveEntries_sorted _ _ hsorted) ?_
      exact List.mem_map.mpr ⟨⟨k, .conflict lv rv⟩, hmem, rfl⟩
    · intro hok
      have hplan : plan base left right .preferRight =
          .ok (applyDiff base (resolveEntries .preferRight
            (threeWayDiff (diffMetaranges base left) (diffMetaranges base right)))) := by
        simp [plan]
      rw [hplan] at hok
      cases hok
      refine applyDiff_lookup_entry base _ k .changed rv hb
        (resolveEntries_sorted _ _ hsorted) ?_
      exact List.mem_map.mpr ⟨⟨k, .conflict lv rv⟩, hmem, rfl⟩
  · simp [plan, diffMetaranges, threeWayDiff, conflictKeys]
  · simp [plan, diffMetaranges, threeWayDiff, conflictKeys, resolveEntries, resolveOne,
      applyDiff]
  · simp [plan, diffMetaranges, threeWayDiff, conflictKeys, resolveEntries, resolveOne,
      applyDiff]

theorem merge_planner_conflict_strategies_witness :
    conflictKeys (threeWayDiff (diffMetaranges [("a", "1")] [("a", "2")])
        (diffMetaranges [("a", "1")] [("a", "3")])) ≠ [] ∧
    plan [("a", "1")] [("a", "2")] [("a", "3")] .failOnConflict =
      .conflicts (conflictKeys (threeWayDiff (diffMetaranges [("a", "1")] [("a", "2")])
        (diffMetaranges [("a", "1")] [("a", "3")]))) ∧
    List.lookup "a" [("a", "2")] = some "2" := by
  have hne : conflictKeys (threeWayDiff (diffMetaranges [("a", "1")] [("a", "2")])
      (diffMetaranges [("a", "1")] [("a", "3")])) ≠ [] := by
    simp [diffMetaranges, threeWayDiff, conflictKeys]
  have hs : SortedKeys [("a", "1")] := by simp [SortedKeys]
  have hs2 : SortedKeys [("a", "2")] := by simp [SortedKeys]
  have hs3 : SortedKeys [("a", "3")] := by simp [SortedKeys]
  have hmem : (⟨"a", .conflict (some "2") (some "3")⟩ : MergeEntry) ∈
      threeWayDiff (diffMetaranges [("a", "1")] [("a", "2")])
        (diffMetaranges [("a", "1")] [("a", "3")]) := by
    simp [diffMetaranges, threeWayDiff]
  have hplan : plan [("a", "1")] [("a", "2")] [("a", "3")] .preferLeft = .ok [("a", "2")] := by
    simp [plan, diffMetaranges, threeWayDiff, conflictKeys, resolveEntries, resolveOne,
      applyDiff]
  exact ⟨hne, merge_planner_conflict_strategies.1 _ _ _ hne,
    (merge_planner_conflict_strategies.2.1 _ _ _ "a" (some "2") (some "3") [("a", "2")]
      hs hs2 hs3 hmem).1 hplan⟩

theorem merge_base_tiebreak_lex_min_witness :
    1 < (lowestCommonAncestors exCrissCross "a" "b").length ∧
    ∃ m, chooseMergeBase exCrissCross "a" "b" = some m ∧
      m ∈ lowestCommonAncestors exCrissCross "a" "b" ∧
      ∀ c ∈ lowestCommonAncestors exCrissCross "a" "b", m ≤ c :=
  ⟨by decide, merge_base_tiebreak_lex_min exCrissCross "a" "b" (by decide)⟩

theorem branch_cas_exactly_one_wins_witness :
    List.lookup "main" [("main", "H")] = some "H" ∧ ("H1" : String) ≠ "H" ∧
    (casAdvance [("main", "H")] "main" "H" "H1").2 = .ok ∧
    ((casAdvance [("main", "H")] "main" "H" "H1").1).lookup "main" = some "H1" ∧
    (casAdvance (casAdvance [("main", "H")] "main" "H" "H1").1 "main" "H" "H2").2 = .conflict ∧
    (casAdvance (casAdvance [("main", "H")] "main" "H" "H1").1 "main" "H" "H2").1 =
      (casAdvance [("main", "H")] "main" "H" "H1").1 :=
  ⟨rfl, by decide, branch_cas_exactly_one_wins [("main", "H")] "main" "H" "H1" "H2" rfl (by decide)⟩

end LakeFS
